import Mathlib

/-!
Verification of the concurrent DDPG training harness in `src/ddpg.py`:
the circular replay buffer (`MemoryBuffer`), the two worker loops
(`ModelThread`, `BufferThread`), the coordinator stop protocol, the
exponential-moving-average target smoothing (`EMAGetter`) and the
exploration-variance decay inside `DDPGModel.train`.

Numeric values that the Python code keeps as floats are modelled as
rationals: the buffer operations only move values around (no rounding is
involved in any claim), and the smoothing / decay recurrences are exact
affine maps whose coefficients (`TAU = 0.01`, `VAR_DECAY = 0.995`) are
decimal literals.
-/

namespace DDPG

/-! ### Global constants (module-level constants of `ddpg.py`) -/

def TAU : ℚ := 1 / 100

def VAR_DECAY : ℚ := 995 / 1000

def EP_MAXLEN : Nat := 200

def N_ITERS : Nat := 500000

def WRITE_LOGS_EVERY : Nat := 200

/-! ### The replay buffer (`MemoryBuffer`) -/

/-- The `MemoryBuffer` object: `capacity` and the column count `s_dim` are the
shape of the numpy arrays created in `__init__`; `state`, `reward`, `s_next`
are the three parallel arrays (rows as lists); `pointer` is the write cursor. -/
structure MemoryBuffer where
  capacity : Nat
  s_dim : Nat
  state : List (List ℚ)
  reward : List ℚ
  s_next : List (List ℚ)
  pointer : Nat
deriving Repr, DecidableEq

/-- `MemoryBuffer.__init__(capacity, s_dim)`: three zero-filled arrays and
`pointer = 0`.  `np.zeros` accepts every nonnegative shape without raising,
so construction is a total function of the (Nat) configuration; no
validation of any kind is performed. -/
def mkMemoryBuffer (capacity s_dim : Nat) : MemoryBuffer :=
  { capacity := capacity
    s_dim := s_dim
    state := List.replicate capacity (List.replicate s_dim 0)
    reward := List.replicate capacity 0
    s_next := List.replicate capacity (List.replicate s_dim 0)
    pointer := 0 }

/-- `MemoryBuffer.__init__(capacity, s_dim)` with the capacity as the Python
integer it is: `np.zeros((capacity, s_dim))` raises a `ValueError`
("negative dimensions are not allowed", modelled by `none`) when the capacity
is negative, and otherwise allocates the zero-filled arrays of
`mkMemoryBuffer`.  This is numpy's own check; `__init__` adds no validation
of its own. -/
def mkMemoryBufferChecked (capacity : Int) (s_dim : Nat) : Option MemoryBuffer :=
  if capacity < 0 then none
  else some (mkMemoryBuffer capacity.toNat s_dim)

/-- numpy row assignment `arr[p, :] = v` for a row of width `dim`: succeeds
elementwise when `v` has length `dim`, broadcasts when `v` has length 1,
and raises a `ValueError` (modelled by `none`) otherwise. -/
def broadcastRow (dim : Nat) (v : List ℚ) : Option (List ℚ) :=
  if v.length = dim then some v
  else if v.length = 1 then some (List.replicate dim v.headI)
  else none

/-- `MemoryBuffer.store_transition(s, r, s_next)`: writes the three fields
into row `pointer` of the three arrays, then advances
`pointer = (pointer + 1) % capacity`.  `none` models the exceptions the
Python raises on a bad call: row index out of range (`IndexError`, in
particular every store on a capacity-0 buffer) or a state vector that does
not fit the row (`ValueError`). -/
def store_transition (b : MemoryBuffer) (s : List ℚ) (r : ℚ) (sn : List ℚ) :
    Option MemoryBuffer :=
  if b.pointer < b.capacity then
    match broadcastRow b.s_dim s, broadcastRow b.s_dim sn with
    | some srow, some snrow =>
        some { b with
                state := b.state.set b.pointer srow
                reward := b.reward.set b.pointer r
                s_next := b.s_next.set b.pointer snrow
                pointer := (b.pointer + 1) % b.capacity }
    | _, _ => none
  else none

/-- `MemoryBuffer.sample(num)`: `np.random.randint(0, capacity, size=[num])`
draws `num` indices independently and uniformly from `[0, capacity)`; the
random source is modelled by an arbitrary stream `draws` of naturals, each
draw reduced `% capacity`, so every combination of in-range indices
(duplicates allowed) is realisable and the draws never consult the pointer
or the array contents.  Returns the three arrays gathered at those indices
together with the buffer object exactly as the call leaves it.  `randint`
raises a `ValueError` (modelled by `none`) when `capacity = 0`. -/
def sample (b : MemoryBuffer) (num : Nat) (draws : Nat → Nat) :
    Option ((List (List ℚ) × List ℚ × List (List ℚ)) × MemoryBuffer) :=
  if b.capacity = 0 then none
  else
    let indices := (List.range num).map fun i => draws i % b.capacity
    some ((indices.map fun j => b.state.getD j [],
           indices.map fun j => b.reward.getD j 0,
           indices.map fun j => b.s_next.getD j []), b)

/-- One environment transition as stored by the buffer: the `(s, r, s_next)`
arguments of a `store_transition` call. -/
structure Transition where
  s : List ℚ
  r : ℚ
  s_next : List ℚ
deriving Repr, DecidableEq

/-- A sequence of `store_transition` calls, failing as soon as one call
raises. -/
def storeMany (b : MemoryBuffer) : List Transition → Option MemoryBuffer
  | [] => some b
  | t :: ts =>
    match store_transition b t.s t.r t.s_next with
    | none => none
    | some b' => storeMany b' ts

/-- A transition whose two state vectors have the buffer's column count, so
that the numpy row assignments succeed without broadcasting. -/
def validTransition (d : Nat) (t : Transition) : Prop :=
  t.s.length = d ∧ t.s_next.length = d

instance (d : Nat) (t : Transition) : Decidable (validTransition d t) := by
  unfold validTransition; infer_instance

/-- Zero-based index of the most recent among the first `n` stores that wrote
row `i` of a capacity-`C` ring (store number `j` writes row `j % C`). -/
def lastWriter (C : Nat) : Nat → Nat → Option Nat
  | 0, _ => none
  | n + 1, i => if n % C = i then some n else lastWriter C n i

/-- Contents of one buffer row described by its most recent writer: a never
written row still holds the `np.zeros` placeholder. -/
def rowOf (d : Nat) : Option Transition → List ℚ × ℚ × List ℚ
  | none => (List.replicate d 0, 0, List.replicate d 0)
  | some t => (t.s, t.r, t.s_next)

/-- The `(state, reward, s_next)` triple stored in row `j`. -/
def rowTriple (b : MemoryBuffer) (j : Nat) : List ℚ × ℚ × List ℚ :=
  (b.state.getD j [], b.reward.getD j 0, b.s_next.getD j [])

/-! ### List helper lemmas -/

lemma getD_set_self {α : Type} (l : List α) (i : Nat) (h : i < l.length) (v dflt : α) :
    (l.set i v).getD i dflt = v := by
  rw [List.getD_eq_getElem _ _ (by simpa using h)]
  simp [List.getElem_set]

lemma getD_set_ne {α : Type} (l : List α) (i j : Nat) (h : i ≠ j) (v dflt : α) :
    (l.set i v).getD j dflt = l.getD j dflt := by
  simp [List.getD_eq_getElem?_getD, List.getElem?_set_ne h]

lemma getD_replicate_lt {α : Type} (n i : Nat) (h : i < n) (v dflt : α) :
    (List.replicate n v).getD i dflt = v := by
  rw [List.getD_eq_getElem _ _ (by simpa using h)]
  simp

lemma getD_map_range {α : Type} (f : Nat → α) (n i : Nat) (h : i < n) (dflt : α) :
    ((List.range n).map f).getD i dflt = f i := by
  rw [List.getD_eq_getElem _ _ (by simpa using h)]
  simp

/-! ### Ring-buffer content after a sequence of stores (claim C1) -/

lemma storeMany_append (b : MemoryBuffer) (ts : List Transition) (t : Transition) :
    storeMany b (ts ++ [t]) =
      match storeMany b ts with
      | none => none
      | some b' => store_transition b' t.s t.r t.s_next := by
  induction ts generalizing b with
  | nil =>
    cases h : store_transition b t.s t.r t.s_next <;> simp [storeMany, h]
  | cons hd tl ih =>
    cases h : store_transition b hd.s hd.r hd.s_next <;> simp [storeMany, h, ih]

lemma store_transition_valid {C d : Nat} (b : MemoryBuffer) (t : Transition)
    (hcap : b.capacity = C) (hdim : b.s_dim = d) (hp : b.pointer < C)
    (ht : validTransition d t) :
    store_transition b t.s t.r t.s_next =
      some { b with
              state := b.state.set b.pointer t.s
              reward := b.reward.set b.pointer t.r
              s_next := b.s_next.set b.pointer t.s_next
              pointer := (b.pointer + 1) % C } := by
  obtain ⟨h1, h2⟩ := ht
  simp [store_transition, broadcastRow, hcap, hdim, hp, h1, h2]

lemma lastWriter_lt {C : Nat} : ∀ {n i j : Nat}, lastWriter C n i = some j → j < n := by
  intro n
  induction n with
  | zero => intro i j h; simp [lastWriter] at h
  | succ m ih =>
    intro i j h
    by_cases hm : m % C = i
    · simp [lastWriter, hm] at h; omega
    · simp [lastWriter, hm] at h
      exact Nat.lt_succ_of_lt (ih h)

lemma lastWriter_isSome {C : Nat} :
    ∀ {n i : Nat}, i < C → i < n → (lastWriter C n i).isSome = true := by
  intro n
  induction n with
  | zero => intro i _ h; omega
  | succ m ih =>
    intro i hiC hin
    by_cases hm : m % C = i
    · simp [lastWriter, hm]
    · have him : i < m := by
        rcases Nat.lt_succ_iff_lt_or_eq.mp hin with h | h
        · exact h
        · exfalso; exact hm (by rw [h]; exact Nat.mod_eq_of_lt (h ▸ hiC))
      simpa [lastWriter, hm] using ih hiC him

lemma storeMany_spec (C d : Nat) (hC : 0 < C) (ts : List Transition)
    (hts : ∀ t ∈ ts, validTransition d t) :
    ∃ b', storeMany (mkMemoryBuffer C d) ts = some b' ∧
      b'.capacity = C ∧ b'.s_dim = d ∧
      b'.state.length = C ∧ b'.reward.length = C ∧ b'.s_next.length = C ∧
      b'.pointer = ts.length % C ∧
      ∀ i, i < C →
        rowTriple b' i =
          rowOf d ((lastWriter C ts.length i).map fun j => ts.getD j ⟨[], 0, []⟩) := by
  induction ts using List.reverseRecOn with
  | nil =>
    refine ⟨mkMemoryBuffer C d, rfl, rfl, rfl, by simp [mkMemoryBuffer],
      by simp [mkMemoryBuffer], by simp [mkMemoryBuffer], by simp [mkMemoryBuffer], ?_⟩
    intro i hi
    simp [rowTriple, mkMemoryBuffer, lastWriter, rowOf, List.getElem?_replicate, hi]
  | append_singleton ts t ih =>
    obtain ⟨b', hrun, hcap, hdim, hlS, hlR, hlNS, hptr, hrow⟩ :=
      ih (fun u hu => hts u (List.mem_append_left _ hu))
    have hvt : validTransition d t := hts t (List.mem_append_right _ (by simp))
    have hplt : b'.pointer < C := hptr ▸ Nat.mod_lt _ hC
    have hstep := store_transition_valid b' t hcap hdim hplt hvt
    have hfull : storeMany (mkMemoryBuffer C d) (ts ++ [t]) =
        some { b' with
                state := b'.state.set b'.pointer t.s
                reward := b'.reward.set b'.pointer t.r
                s_next := b'.s_next.set b'.pointer t.s_next
                pointer := (b'.pointer + 1) % C } := by
      rw [storeMany_append, hrun]
      exact hstep
    refine ⟨_, hfull, hcap, hdim, by simpa using hlS,
      by simpa using hlR, by simpa using hlNS, ?_, ?_⟩
    · simp only [List.length_append, List.length_singleton]
      rw [hptr, Nat.mod_add_mod]
    · intro i hi
      by_cases hip : i = b'.pointer
      · have h1 : lastWriter C (ts ++ [t]).length i = some ts.length := by
          simp only [List.length_append, List.length_singleton, lastWriter]
          rw [if_pos (by rw [← hptr, ← hip])]
        have hgt : (ts ++ [t]).getD ts.length ⟨[], 0, []⟩ = t := by
          rw [List.getD_append_right _ _ _ _ (le_refl ts.length)]
          simp
        rw [h1, Option.map_some', hgt]
        show rowTriple _ i = (t.s, t.r, t.s_next)
        simp only [rowTriple]
        rw [hip]
        rw [getD_set_self _ _ (by rw [hlS]; exact hplt),
          getD_set_self _ _ (by rw [hlR]; exact hplt),
          getD_set_self _ _ (by rw [hlNS]; exact hplt)]
      · have h1 : lastWriter C (ts ++ [t]).length i = lastWriter C ts.length i := by
          simp only [List.length_append, List.length_singleton, lastWriter]
          rw [if_neg (fun h => hip (h ▸ hptr).symm)]
        have h2 : rowTriple { b' with
            state := b'.state.set b'.pointer t.s
            reward := b'.reward.set b'.pointer t.r
            s_next := b'.s_next.set b'.pointer t.s_next
            pointer := (b'.pointer + 1) % C } i = rowTriple b' i := by
          simp only [rowTriple]
          rw [getD_set_ne _ _ _ (fun h => hip h.symm), getD_set_ne _ _ _ (fun h => hip h.symm),
            getD_set_ne _ _ _ (fun h => hip h.symm)]
        rw [h1, h2, hrow i hi]
        cases hlw : lastWriter C ts.length i with
        | none => rfl
        | some j =>
          have hj : j < ts.length := lastWriter_lt hlw
          simp only [Option.map_some', rowOf]
          rw [List.getD_append _ _ _ _ hj]

/-- Elimination form of a successful `store_transition` call. -/
lemma store_transition_some {b : MemoryBuffer} {s : List ℚ} {r : ℚ} {sn : List ℚ}
    {b' : MemoryBuffer} (h : store_transition b s r sn = some b') :
    b.pointer < b.capacity ∧
    ∃ srow snrow, broadcastRow b.s_dim s = some srow ∧ broadcastRow b.s_dim sn = some snrow ∧
      b' = { b with
              state := b.state.set b.pointer srow
              reward := b.reward.set b.pointer r
              s_next := b.s_next.set b.pointer snrow
              pointer := (b.pointer + 1) % b.capacity } := by
  unfold store_transition at h
  by_cases hp : b.pointer < b.capacity
  · rw [if_pos hp] at h
    refine ⟨hp, ?_⟩
    cases h1 : broadcastRow b.s_dim s with
    | none => simp [h1] at h
    | some srow =>
      cases h2 : broadcastRow b.s_dim sn with
      | none => simp [h1, h2] at h
      | some snrow =>
        rw [h1, h2] at h
        exact ⟨srow, snrow, rfl, rfl, (Option.some.inj h).symm⟩
  · rw [if_neg hp] at h
    cases h

/-- The five stores of the spec's concrete scenario (capacity 4, dimension 1,
state values `[1]..[5]`). -/
def demoTransitions : List Transition :=
  [⟨[1], 0, [0]⟩, ⟨[2], 0, [0]⟩, ⟨[3], 0, [0]⟩, ⟨[4], 0, [0]⟩, ⟨[5], 0, [0]⟩]

/-- **C1** (circular overwrite): starting from a fresh buffer of capacity `C > 0`,
after any sequence of successful stores every row holds the transition of its most
recent writer (never-written rows still hold zeros), the pointer equals the store
count mod `C`, and once at least `C` stores have happened every row has a writer;
concretely, with `C = 4`, dimension 1 and state values `[1],[2],[3],[4],[5]` the
final rows hold states `[5],[2],[3],[4]` and the pointer is 1. -/
theorem spec_circular_overwrite (C d : Nat) (hC : 0 < C) (ts : List Transition)
    (hts : ∀ t ∈ ts, validTransition d t) :
    (∃ b', storeMany (mkMemoryBuffer C d) ts = some b' ∧
        b'.pointer = ts.length % C ∧
        (∀ i, i < C →
          rowTriple b' i =
            rowOf d ((lastWriter C ts.length i).map fun j => ts.getD j ⟨[], 0, []⟩)) ∧
        (C ≤ ts.length → ∀ i, i < C → (lastWriter C ts.length i).isSome = true)) ∧
    (∃ bfin, storeMany (mkMemoryBuffer 4 1) demoTransitions = some bfin ∧
        bfin.state = [[5], [2], [3], [4]] ∧ bfin.pointer = 1) := by
  constructor
  · obtain ⟨b', h1, _, _, _, _, _, h7, h8⟩ := storeMany_spec C d hC ts hts
    exact ⟨b', h1, h7, h8, fun hn i hi => lastWriter_isSome hi (lt_of_lt_of_le hi hn)⟩
  · exact ⟨⟨4, 1, [[5], [2], [3], [4]], [0, 0, 0, 0], [[0], [0], [0], [0]], 1⟩,
      by decide, rfl, rfl⟩

theorem spec_circular_overwrite_witness :
    ((0 : Nat) < 4 ∧ ∀ t ∈ demoTransitions, validTransition 1 t) ∧
    (∃ b', storeMany (mkMemoryBuffer 4 1) demoTransitions = some b' ∧
        b'.pointer = demoTransitions.length % 4 ∧
        (∀ i, i < 4 →
          rowTriple b' i =
            rowOf 1 ((lastWriter 4 demoTransitions.length i).map fun j =>
              demoTransitions.getD j ⟨[], 0, []⟩)) ∧
        (4 ≤ demoTransitions.length → ∀ i, i < 4 →
          (lastWriter 4 demoTransitions.length i).isSome = true)) :=
  ⟨⟨by decide, by decide⟩,
    (spec_circular_overwrite 4 1 (by decide) demoTransitions (by decide)).1⟩

/-- **C9** (pointer invariant): for capacity `C > 0`, the pointer is 0 (hence in
`[0, C)`) after construction; every successful `store_transition` writes exactly
into the row the pointer designated before the call and advances the pointer to
`(pointer + 1) % C`, which again lies in `[0, C)`. -/
theorem spec_pointer_invariant (C : Nat) (hC : 0 < C) :
    (∀ d, (mkMemoryBuffer C d).pointer = 0 ∧ (mkMemoryBuffer C d).pointer < C) ∧
    (∀ (b b' : MemoryBuffer) (s : List ℚ) (r : ℚ) (sn : List ℚ),
      b.capacity = C →
      store_transition b s r sn = some b' →
      (∃ srow snrow, broadcastRow b.s_dim s = some srow ∧
          broadcastRow b.s_dim sn = some snrow ∧
          b'.state = b.state.set b.pointer srow ∧
          b'.reward = b.reward.set b.pointer r ∧
          b'.s_next = b.s_next.set b.pointer snrow) ∧
      b'.pointer = (b.pointer + 1) % C ∧ b'.pointer < C) := by
  refine ⟨fun d => ⟨rfl, hC⟩, ?_⟩
  intro b b' s r sn hcap hst
  obtain ⟨hp, srow, snrow, h1, h2, h3⟩ := store_transition_some hst
  subst h3
  rw [hcap]
  exact ⟨⟨srow, snrow, h1, h2, rfl, rfl, rfl⟩, rfl, Nat.mod_lt _ hC⟩

/-- The buffer produced by one store of state `[1]` into a fresh `(4, 1)` buffer. -/
def storeDemoResult : MemoryBuffer :=
  { capacity := 4, s_dim := 1, state := [[1], [0], [0], [0]],
    reward := [0, 0, 0, 0], s_next := [[0], [0], [0], [0]], pointer := 1 }

theorem spec_pointer_invariant_witness :
    ((0 : Nat) < 4 ∧ (mkMemoryBuffer 4 1).capacity = 4 ∧
      store_transition (mkMemoryBuffer 4 1) [1] 0 [0] = some storeDemoResult) ∧
    ((∃ srow snrow, broadcastRow (mkMemoryBuffer 4 1).s_dim [1] = some srow ∧
        broadcastRow (mkMemoryBuffer 4 1).s_dim [0] = some snrow ∧
        storeDemoResult.state = (mkMemoryBuffer 4 1).state.set (mkMemoryBuffer 4 1).pointer srow ∧
        storeDemoResult.reward = (mkMemoryBuffer 4 1).reward.set (mkMemoryBuffer 4 1).pointer 0 ∧
        storeDemoResult.s_next = (mkMemoryBuffer 4 1).s_next.set (mkMemoryBuffer 4 1).pointer snrow) ∧
      storeDemoResult.pointer = ((mkMemoryBuffer 4 1).pointer + 1) % 4 ∧
      storeDemoResult.pointer < 4) :=
  ⟨⟨by decide, rfl, by decide⟩,
    (spec_pointer_invariant 4 (by decide)).2 (mkMemoryBuffer 4 1) storeDemoResult
      [1] 0 [0] rfl (by decide)⟩

/-- **C2** (sample bounds): with capacity `C > 0`, every `sample(n)` call succeeds;
every gathered index lies in `[0, C)`, the three returned arrays each have exactly
`n` rows, row `i` of all three arrays is gathered at the same buffer index
`draws i % C`, the result ignores the pointer (and hence how many rows were ever
written), and every in-range index tuple (duplicates allowed) is realisable by
some draw of the random source. -/
theorem spec_sample_bounds (b : MemoryBuffer) (num : Nat) (draws : Nat → Nat)
    (hcap : 0 < b.capacity) :
    ∃ S R NS, sample b num draws = some ((S, R, NS), b) ∧
      S.length = num ∧ R.length = num ∧ NS.length = num ∧
      (∀ i, i < num → ∃ j, j < b.capacity ∧ j = draws i % b.capacity ∧
        S.getD i [] = b.state.getD j [] ∧ R.getD i 0 = b.reward.getD j 0 ∧
        NS.getD i [] = b.s_next.getD j []) ∧
      (∀ p, sample { b with pointer := p } num draws =
        some ((S, R, NS), { b with pointer := p })) ∧
      (∀ t : Nat → Nat, (∀ i, i < num → t i < b.capacity) →
        ∃ dr : Nat → Nat, ∀ i, i < num → dr i % b.capacity = t i) := by
  have hne : ¬ b.capacity = 0 := Nat.pos_iff_ne_zero.mp hcap
  refine ⟨(List.range num).map fun i => b.state.getD (draws i % b.capacity) [],
    (List.range num).map fun i => b.reward.getD (draws i % b.capacity) 0,
    (List.range num).map fun i => b.s_next.getD (draws i % b.capacity) [],
    ?_, by simp, by simp, by simp, ?_, ?_, ?_⟩
  · simp [sample, hne, List.map_map, Function.comp_def]
  · intro i hi
    exact ⟨draws i % b.capacity, Nat.mod_lt _ hcap, rfl,
      by rw [getD_map_range _ _ _ hi], by rw [getD_map_range _ _ _ hi],
      by rw [getD_map_range _ _ _ hi]⟩
  · intro p
    simp [sample, hne, List.map_map, Function.comp_def]
  · intro t ht
    exact ⟨t, fun i hi => Nat.mod_eq_of_lt (ht i hi)⟩

theorem spec_sample_bounds_witness :
    (0 : Nat) < (mkMemoryBuffer 4 1).capacity ∧
    (∃ S R NS, sample (mkMemoryBuffer 4 1) 2 (fun i => i + 5) = some ((S, R, NS), mkMemoryBuffer 4 1) ∧
      S.length = 2 ∧ R.length = 2 ∧ NS.length = 2 ∧
      (∀ i, i < 2 → ∃ j, j < (mkMemoryBuffer 4 1).capacity ∧ j = (i + 5) % (mkMemoryBuffer 4 1).capacity ∧
        S.getD i [] = (mkMemoryBuffer 4 1).state.getD j [] ∧
        R.getD i 0 = (mkMemoryBuffer 4 1).reward.getD j 0 ∧
        NS.getD i [] = (mkMemoryBuffer 4 1).s_next.getD j []) ∧
      (∀ p, sample { mkMemoryBuffer 4 1 with pointer := p } 2 (fun i => i + 5) =
        some ((S, R, NS), { mkMemoryBuffer 4 1 with pointer := p })) ∧
      (∀ t : Nat → Nat, (∀ i, i < 2 → t i < (mkMemoryBuffer 4 1).capacity) →
        ∃ dr : Nat → Nat, ∀ i, i < 2 → dr i % (mkMemoryBuffer 4 1).capacity = t i)) :=
  ⟨by decide, spec_sample_bounds (mkMemoryBuffer 4 1) 2 (fun i => i + 5) (by decide)⟩

/-- **C10** (sampling is read-only): every successful `sample` call returns the
buffer object with all of its fields — the three arrays, the pointer and the
capacity — exactly as they were before the call. -/
theorem spec_sample_readonly (b : MemoryBuffer) (num : Nat) (draws : Nat → Nat)
    (out : (List (List ℚ) × List ℚ × List (List ℚ)) × MemoryBuffer)
    (h : sample b num draws = some out) :
    out.2 = b ∧ out.2.state = b.state ∧ out.2.reward = b.reward ∧
    out.2.s_next = b.s_next ∧ out.2.pointer = b.pointer ∧ out.2.capacity = b.capacity := by
  unfold sample at h
  by_cases hc : b.capacity = 0
  · rw [if_pos hc] at h
    cases h
  · rw [if_neg hc] at h
    have h2 := (Option.some.inj h).symm
    subst h2
    exact ⟨rfl, rfl, rfl, rfl, rfl, rfl⟩

/-- The value of `sample(2)` with draws `0, 1` on a fresh `(4, 1)` buffer. -/
def sampleDemoOut : (List (List ℚ) × List ℚ × List (List ℚ)) × MemoryBuffer :=
  (([[0], [0]], [0, 0], [[0], [0]]), mkMemoryBuffer 4 1)

theorem spec_sample_readonly_witness :
    sample (mkMemoryBuffer 4 1) 2 (fun i => i) = some sampleDemoOut ∧
    (sampleDemoOut.2 = mkMemoryBuffer 4 1 ∧
      sampleDemoOut.2.state = (mkMemoryBuffer 4 1).state ∧
      sampleDemoOut.2.reward = (mkMemoryBuffer 4 1).reward ∧
      sampleDemoOut.2.s_next = (mkMemoryBuffer 4 1).s_next ∧
      sampleDemoOut.2.pointer = (mkMemoryBuffer 4 1).pointer ∧
      sampleDemoOut.2.capacity = (mkMemoryBuffer 4 1).capacity) :=
  ⟨by decide,
    spec_sample_readonly (mkMemoryBuffer 4 1) 2 (fun i => i) sampleDemoOut (by decide)⟩

/-- **C8** is false on the code as stated: `MemoryBuffer.__init__` performs no
validation of its own.  A capacity of 0 — non-positive, inside the claim's
scope — constructs successfully (numpy accepts the shape `(0, d)` and creates
empty arrays), so it does not fail at construction; the configuration error
only surfaces when the first operation is attempted, as `store_transition`
and `sample` on the capacity-0 buffer raise. -/
theorem spec_failfast_counterexample :
    mkMemoryBufferChecked 0 1 = some
      { capacity := 0, s_dim := 1, state := [], reward := [], s_next := [], pointer := 0 } ∧
    store_transition (mkMemoryBuffer 0 1) [5] 1 [6] = none ∧
    sample (mkMemoryBuffer 0 1) 1 (fun _ => 0) = none :=
  ⟨rfl, by decide, rfl⟩

/-- **C8** amended: construction performs no validation of its own, and the
only construction-time failure is numpy's own rejection of a negative array
dimension.  So of the claim's "non-positive capacity" scope, a negative
capacity does fail at construction (`ValueError` from `np.zeros`), but a zero
capacity constructs successfully — empty arrays, pointer 0 — and the
configuration error surfaces only at the first `store_transition` or `sample`
call; state dimensionality is never checked at construction (a nonnegative
capacity constructs for every dimensionality), and a state vector whose
length matches neither the configured dimensionality nor numpy's broadcast
width 1 makes `store_transition` fail at call time instead. -/
theorem spec_failfast_amended :
    (∀ (c : Int) (d : Nat), c < 0 → mkMemoryBufferChecked c d = none) ∧
    (∀ (c : Int) (d : Nat), 0 ≤ c →
      mkMemoryBufferChecked c d = some (mkMemoryBuffer c.toNat d)) ∧
    (∀ C d : Nat, mkMemoryBuffer C d =
      { capacity := C, s_dim := d,
        state := List.replicate C (List.replicate d 0),
        reward := List.replicate C 0,
        s_next := List.replicate C (List.replicate d 0), pointer := 0 }) ∧
    (∀ (s : List ℚ) (r : ℚ) (sn : List ℚ) (d : Nat),
      store_transition (mkMemoryBuffer 0 d) s r sn = none) ∧
    (∀ (C d : Nat) (s : List ℚ) (r : ℚ) (sn : List ℚ),
      s.length ≠ d → s.length ≠ 1 →
      store_transition (mkMemoryBuffer C d) s r sn = none) ∧
    (∀ (num : Nat) (draws : Nat → Nat) (d : Nat),
      sample (mkMemoryBuffer 0 d) num draws = none) := by
  refine ⟨?_, ?_, fun C d => rfl,
    fun s r sn d => by simp [store_transition, mkMemoryBuffer], ?_,
    fun num draws d => rfl⟩
  · intro c d hc
    simp [mkMemoryBufferChecked, hc]
  · intro c d hc
    simp [mkMemoryBufferChecked, not_lt.mpr hc]
  · intro C d s r sn hs hs1
    simp [store_transition, mkMemoryBuffer, broadcastRow, hs, hs1]

theorem spec_failfast_amended_witness :
    (((-1 : Int) < 0 ∧ (0 : Int) ≤ 4) ∧
      (([1, 2, 3] : List ℚ).length ≠ 1 ∧ ([1, 2, 3] : List ℚ).length ≠ 1)) ∧
    (mkMemoryBufferChecked (-1) 1 = none ∧
      mkMemoryBufferChecked 4 1 = some (mkMemoryBuffer (4 : Int).toNat 1) ∧
      store_transition (mkMemoryBuffer 4 1) [1, 2, 3] 0 [0] = none) :=
  ⟨⟨⟨by decide, by decide⟩, ⟨by decide, by decide⟩⟩,
    ⟨spec_failfast_amended.1 (-1) 1 (by decide),
      spec_failfast_amended.2.1 4 1 (by decide),
      spec_failfast_amended.2.2.2.2.1 4 1 [1, 2, 3] 0 [0] (by decide) (by decide)⟩⟩

/-! ### Target smoothing (`EMAGetter`, claim C5) -/

/-- One application of the smoothing rule realised by
`tf.train.ExponentialMovingAverage(decay = 1.0 - TAU)` in `EMAGetter` and driven
once per `train` call by the `control_dependencies(target_update)` edge:
`shadow ← decay·shadow + (1 - decay)·value`, i.e.
`target ← (1-τ)·target + τ·online`. -/
def emaUpdate (target online : ℚ) : ℚ := (1 - TAU) * target + TAU * online

/-- Target parameter after `s` smoothing steps against a fixed online value. -/
def emaIter (online target0 : ℚ) : Nat → ℚ
  | 0 => target0
  | s + 1 => emaUpdate (emaIter online target0 s) online

/-- The smoothing rule applied to a whole parameter list, componentwise
(`ema.apply(a_vars)` / `ema.apply(c_vars)` touch every trainable variable
independently). -/
def emaVec (targets onlines : List ℚ) : List ℚ := List.zipWith emaUpdate targets onlines

lemma emaIter_sub (online target0 : ℚ) (s : Nat) :
    emaIter online target0 s - online = (1 - TAU) ^ s * (target0 - online) := by
  induction s with
  | zero => simp [emaIter]
  | succ n ih =>
    have h : emaIter online target0 (n + 1) - online =
        (1 - TAU) * (emaIter online target0 n - online) := by
      simp only [emaIter, emaUpdate]; ring
    rw [h, ih, pow_succ]; ring

lemma emaIter_tendsto (online target0 : ℚ) :
    Filter.Tendsto (fun s : Nat => ((emaIter online target0 s : ℚ) : ℝ))
      Filter.atTop (nhds ((online : ℚ) : ℝ)) := by
  have hfor : ∀ s : Nat, ((emaIter online target0 s : ℚ) : ℝ) =
      (online : ℝ) + ((99 : ℝ) / 100) ^ s * ((target0 : ℝ) - (online : ℝ)) := by
    intro s
    have h := emaIter_sub online target0 s
    have h2 : (emaIter online target0 s : ℚ) = online + (1 - TAU) ^ s * (target0 - online) := by
      linarith
    rw [h2]
    push_cast [TAU]
    ring
  rw [funext hfor]
  have h0 : Filter.Tendsto (fun s : Nat => ((99 : ℝ) / 100) ^ s) Filter.atTop (nhds 0) :=
    tendsto_pow_atTop_nhds_zero_of_lt_one (by norm_num) (by norm_num)
  have h1 := h0.mul_const ((target0 : ℝ) - (online : ℝ))
  rw [zero_mul] at h1
  have h2 := h1.const_add ((online : ℚ) : ℝ)
  simpa using h2

/-- **C5** (smoothing convergence): each update is
`target ← (1-τ)·target + τ·online`, applied to every parameter independently;
against a fixed online value the gap after `s` steps is scaled by `(1-τ)^s`,
is nonincreasing in absolute value, and the target converges to the online
value as updates continue. -/
theorem spec_smoothing_convergence (online target0 : ℚ) :
    (∀ t o : ℚ, emaUpdate t o = (1 - TAU) * t + TAU * o) ∧
    (∀ targets onlines : List ℚ, ∀ i, i < targets.length → i < onlines.length →
      (emaVec targets onlines).getD i 0 = emaUpdate (targets.getD i 0) (onlines.getD i 0)) ∧
    (∀ s : Nat, emaIter online target0 s - online = (1 - TAU) ^ s * (target0 - online)) ∧
    (∀ s : Nat, |emaIter online target0 (s + 1) - online| ≤ |emaIter online target0 s - online|) ∧
    Filter.Tendsto (fun s : Nat => ((emaIter online target0 s : ℚ) : ℝ))
      Filter.atTop (nhds ((online : ℚ) : ℝ)) := by
  refine ⟨fun t o => rfl, ?_, emaIter_sub online target0, ?_, emaIter_tendsto online target0⟩
  · intro targets onlines i h1 h2
    have hlen : i < (emaVec targets onlines).length := by
      simp [emaVec, List.length_zipWith]; omega
    rw [List.getD_eq_getElem _ _ hlen, List.getD_eq_getElem _ _ h1, List.getD_eq_getElem _ _ h2]
    simp [emaVec, List.getElem_zipWith]
  · intro s
    rw [emaIter_sub, emaIter_sub, pow_succ]
    have h99 : |(1 : ℚ) - TAU| ≤ 1 := by rw [TAU, abs_le]; constructor <;> norm_num
    calc |(1 - TAU) ^ s * (1 - TAU) * (target0 - online)|
        = |1 - TAU| * |(1 - TAU) ^ s * (target0 - online)| := by
          rw [← abs_mul]; ring_nf
      _ ≤ 1 * |(1 - TAU) ^ s * (target0 - online)| :=
          mul_le_mul_of_nonneg_right h99 (abs_nonneg _)
      _ = |(1 - TAU) ^ s * (target0 - online)| := one_mul _

theorem spec_smoothing_convergence_witness :
    ((2 : Nat) < ([10, 20, 30] : List ℚ).length ∧ (2 : Nat) < ([4, 5, 6] : List ℚ).length) ∧
    (emaVec [10, 20, 30] [4, 5, 6]).getD 2 0 =
      emaUpdate (([10, 20, 30] : List ℚ).getD 2 0) (([4, 5, 6] : List ℚ).getD 2 0) :=
  ⟨⟨by decide, by decide⟩,
    (spec_smoothing_convergence 4 10).2.1 [10, 20, 30] [4, 5, 6] 2 (by decide) (by decide)⟩

/-! ### Exploration-variance decay (`DDPGModel.train`, claim C6) -/

/-- The `(counter, variance)` pair owned by `DDPGModel`: `__init__` sets
`self.counter = 0` and `self.variance = 3.0`. -/
structure TrainState where
  counter : Nat
  variance : ℚ
deriving Repr, DecidableEq

def initialTrainState : TrainState := ⟨0, 3⟩

/-- The counter/variance effect of one `DDPGModel.train` call:
`self.counter += 1`, then `self.variance *= VAR_DECAY` exactly when
`self.counter % WRITE_LOGS_EVERY == WRITE_LOGS_EVERY - 1`. -/
def trainTick (st : TrainState) : TrainState :=
  if (st.counter + 1) % WRITE_LOGS_EVERY = WRITE_LOGS_EVERY - 1 then
    ⟨st.counter + 1, st.variance * VAR_DECAY⟩
  else
    ⟨st.counter + 1, st.variance⟩

/-- Model state after `n` learner iterations from a fresh model. -/
def trainAfter : Nat → TrainState
  | 0 => initialTrainState
  | n + 1 => trainTick (trainAfter n)

/-- Number of decay events among the first `n` train calls: the call that makes
the counter `c` fires a decay iff `c % WRITE_LOGS_EVERY = WRITE_LOGS_EVERY - 1`. -/
def decayEvents : Nat → Nat
  | 0 => 0
  | n + 1 =>
    decayEvents n + (if (n + 1) % WRITE_LOGS_EVERY = WRITE_LOGS_EVERY - 1 then 1 else 0)

lemma trainAfter_counter (n : Nat) : (trainAfter n).counter = n := by
  induction n with
  | zero => rfl
  | succ m ih =>
    simp only [trainAfter, trainTick]
    split <;> simp [ih]

lemma trainAfter_variance (n : Nat) :
    (trainAfter n).variance = 3 * VAR_DECAY ^ decayEvents n := by
  induction n with
  | zero => simp [trainAfter, initialTrainState, decayEvents]
  | succ m ih =>
    simp only [trainAfter, trainTick, decayEvents, trainAfter_counter m]
    by_cases h : (m + 1) % WRITE_LOGS_EVERY = WRITE_LOGS_EVERY - 1
    · rw [if_pos h, if_pos h]
      simp only [ih, pow_add, pow_one]
      ring
    · rw [if_neg h, if_neg h]
      simp [ih]

lemma decayEvents_eq (n : Nat) : decayEvents n = (n + 1) / WRITE_LOGS_EVERY := by
  induction n with
  | zero => simp [decayEvents, WRITE_LOGS_EVERY]
  | succ m ih =>
    simp only [decayEvents, ih, WRITE_LOGS_EVERY] at *
    by_cases h : (m + 1) % 200 = 199
    · rw [if_pos h]; omega
    · rw [if_neg h]; omega

/-- **C6** (exploration decay): the counter counts the iterations, the decay
event fires exactly once per `WRITE_LOGS_EVERY` iterations, the decay factor is
`< 1`, after `decayEvents n` events the variance equals
`3.0 × VAR_DECAY ^ decayEvents n`, and the variance sequence is monotonically
non-increasing. -/
theorem spec_exploration_decay :
    (∀ n, (trainAfter n).counter = n) ∧
    (∀ n, (trainAfter n).variance = 3 * VAR_DECAY ^ decayEvents n) ∧
    (∀ n, decayEvents n = (n + 1) / WRITE_LOGS_EVERY) ∧
    (∀ n, decayEvents (n + WRITE_LOGS_EVERY) = decayEvents n + 1) ∧
    VAR_DECAY < 1 ∧
    (∀ n, (trainAfter (n + 1)).variance ≤ (trainAfter n).variance) := by
  refine ⟨trainAfter_counter, trainAfter_variance, decayEvents_eq, ?_, by norm_num [VAR_DECAY], ?_⟩
  · intro n
    rw [decayEvents_eq, decayEvents_eq]
    simp only [WRITE_LOGS_EVERY]
    omega
  · intro n
    rw [trainAfter_variance, trainAfter_variance]
    have hd : decayEvents n ≤ decayEvents (n + 1) := by
      rw [decayEvents_eq, decayEvents_eq]; simp only [WRITE_LOGS_EVERY]; omega
    have h1 : VAR_DECAY ^ decayEvents (n + 1) ≤ VAR_DECAY ^ decayEvents n :=
      pow_le_pow_of_le_one (by norm_num [VAR_DECAY]) (by norm_num [VAR_DECAY]) hd
    linarith

/-! ### Termination protocol (`ModelThread.run` / `BufferThread.run`, claim C7) -/

/-- Observable state of `ModelThread.run`: completed loop iterations (each
iteration performs exactly one `buffer.sample` and one `model.train`), and
whether `coord.request_stop()` has executed (it runs right after the loop). -/
structure LearnerState where
  iters : Nat
  samples : Nat
  trains : Nat
  stopRequested : Bool
deriving Repr, DecidableEq

/-- One scheduling step of `ModelThread.run`: while iterations of
`range(N_ITERS)` remain, run one loop body (one sample, one train); once the
loop is exhausted, execute `coord.request_stop()`. -/
def learnerStep (st : LearnerState) : LearnerState :=
  if st.iters < N_ITERS then ⟨st.iters + 1, st.samples + 1, st.trains + 1, st.stopRequested⟩
  else ⟨st.iters, st.samples, st.trains, true⟩

def learnerAfter : Nat → LearnerState
  | 0 => ⟨0, 0, 0, false⟩
  | n + 1 => learnerStep (learnerAfter n)

lemma learnerAfter_le (n : Nat) (h : n ≤ N_ITERS) : learnerAfter n = ⟨n, n, n, false⟩ := by
  induction n with
  | zero => rfl
  | succ m ih =>
    rw [learnerAfter, ih (Nat.le_of_succ_le h), learnerStep]
    rw [if_pos (Nat.lt_of_succ_le h)]

/-- Position of `BufferThread.run` in its control flow: at the
`while not coord.should_stop()` check, inside an episode with `remaining`
iterations of the `range(EP_MAXLEN)` loop still allowed, or past the loop. -/
inductive ProducerPhase
  | checking
  | inEpisode (remaining : Nat)
  | exited
deriving Repr, DecidableEq

/-- One scheduling step of `BufferThread.run`.  `stopFlag` is what
`coord.should_stop()` returns now; `done` is the episode-termination flag the
next environment step returns.  At the check, a set flag exits the thread,
otherwise a fresh episode of at most `EP_MAXLEN` body iterations begins; each
body iteration steps the environment and stores one transition, and `done`
breaks back to the check. -/
def producerStep (stopFlag done : Bool) : ProducerPhase → ProducerPhase
  | .checking => if stopFlag then .exited else .inEpisode EP_MAXLEN
  | .inEpisode 0 => .checking
  | .inEpisode (k + 1) => if done then .checking else .inEpisode k
  | .exited => .exited

/-- Producer phase after `n` scheduling steps against the oracle streams
`flags` (coordinator flag at each step) and `dones` (episode termination). -/
def producerRun (flags dones : Nat → Bool) : Nat → ProducerPhase
  | 0 => .checking
  | n + 1 => producerStep (flags n) (dones n) (producerRun flags dones n)

/-- Steps needed (at most) until exit once the stop flag stays set. -/
def phaseMeasure : ProducerPhase → Nat
  | .exited => 0
  | .checking => 1
  | .inEpisode k => k + 2

lemma producerRun_remaining_le (flags dones : Nat → Bool) :
    ∀ n k, producerRun flags dones n = .inEpisode k → k ≤ EP_MAXLEN := by
  intro n
  induction n with
  | zero => intro k h; cases h
  | succ m ih =>
    intro k h
    rw [producerRun] at h
    cases hp : producerRun flags dones m with
    | checking =>
      rw [hp] at h
      by_cases hfl : flags m = true
      · simp [producerStep, hfl] at h
      · simp [producerStep, Bool.not_eq_true _ ▸ hfl] at h
        omega
    | inEpisode j =>
      rw [hp] at h
      cases j with
      | zero => cases h
      | succ j2 =>
        have hj := ih (j2 + 1) hp
        by_cases hd : dones m = true
        · simp [producerStep, hd] at h
        · simp [producerStep, hd] at h
          omega
    | exited => rw [hp] at h; cases h

lemma producer_exit_aux (flags dones : Nat → Bool) :
    ∀ j t, (∀ m, t ≤ m → flags m = true) →
      phaseMeasure (producerRun flags dones t) ≤ j →
      producerRun flags dones (t + j) = .exited := by
  intro j
  induction j with
  | zero =>
    intro t _ hm
    cases hp : producerRun flags dones t with
    | exited => simpa using hp
    | checking => rw [hp] at hm; simp [phaseMeasure] at hm
    | inEpisode k => rw [hp] at hm; simp [phaseMeasure] at hm
  | succ j ih =>
    intro t hf hm
    have hrun : producerRun flags dones (t + 1) =
        producerStep (flags t) (dones t) (producerRun flags dones t) := rfl
    have hstep : phaseMeasure (producerRun flags dones (t + 1)) ≤ j := by
      cases hp : producerRun flags dones t with
      | exited => rw [hrun, hp]; simp [producerStep, phaseMeasure]
      | checking =>
        rw [hrun, hp, hf t (le_refl t)]
        simp [producerStep, phaseMeasure]
      | inEpisode k =>
        rw [hp, phaseMeasure] at hm
        rw [hrun, hp]
        cases k with
        | zero => simp [producerStep, phaseMeasure]; omega
        | succ k2 =>
          by_cases hd : dones t = true <;> simp [producerStep, hd, phaseMeasure] <;> omega
    have h2 := ih (t + 1) (fun m hm2 => hf m (by omega)) hstep
    have h3 : t + (j + 1) = t + 1 + j := by omega
    rw [h3]
    exact h2

/-- **C7** (termination protocol): the learner loop runs exactly `N_ITERS`
iterations — each with one sample and one train call — with the stop flag still
unset, and its next action sets the flag; the producer, once the flag is set,
never begins a new episode after observing it at an episode-start check and
exits within one full episode (at most `EP_MAXLEN + 2` scheduling steps). -/
theorem spec_termination_protocol (flags dones : Nat → Bool) (t : Nat)
    (hf : ∀ m, t ≤ m → flags m = true) :
    (∀ n, n ≤ N_ITERS → learnerAfter n = ⟨n, n, n, false⟩) ∧
    learnerAfter N_ITERS = ⟨N_ITERS, N_ITERS, N_ITERS, false⟩ ∧
    learnerAfter (N_ITERS + 1) = ⟨N_ITERS, N_ITERS, N_ITERS, true⟩ ∧
    (∀ d, producerStep true d .checking = .exited) ∧
    (∀ f d, producerStep f d .exited = .exited) ∧
    producerRun flags dones (t + (EP_MAXLEN + 2)) = .exited := by
  refine ⟨learnerAfter_le, learnerAfter_le N_ITERS (le_refl _), ?_, fun d => rfl,
    fun f d => rfl, ?_⟩
  · rw [learnerAfter, learnerAfter_le N_ITERS (le_refl _), learnerStep]
    rw [if_neg (lt_irrefl _)]
  · apply producer_exit_aux flags dones (EP_MAXLEN + 2) t hf
    cases hp : producerRun flags dones t with
    | exited => simp [phaseMeasure]
    | checking => simp [phaseMeasure]
    | inEpisode k =>
      have := producerRun_remaining_le flags dones t k hp
      simp only [phaseMeasure]
      omega

theorem spec_termination_protocol_witness :
    (∀ m : Nat, 0 ≤ m → (fun _ : Nat => true) m = true) ∧
    producerRun (fun _ => true) (fun _ => false) (0 + (EP_MAXLEN + 2)) =
      ProducerPhase.exited :=
  ⟨fun _ _ => rfl,
    (spec_termination_protocol (fun _ => true) (fun _ => false) 0
      (fun _ _ => rfl)).2.2.2.2.2⟩

/-! ### Buffer prefill (`MemoryBuffer.init_buffer`, claim C4) -/

/-- Generalisation of `store_transition_valid` to raw arguments: on a valid
buffer a store of correctly-dimensioned vectors always succeeds. -/
lemma store_transition_ok {C d : Nat} (b : MemoryBuffer)
    (hcap : b.capacity = C) (hdim : b.s_dim = d) (hp : b.pointer < C)
    (s : List ℚ) (r : ℚ) (sn : List ℚ) (hs : s.length = d) (hsn : sn.length = d) :
    store_transition b s r sn =
      some { b with
              state := b.state.set b.pointer s
              reward := b.reward.set b.pointer r
              s_next := b.s_next.set b.pointer sn
              pointer := (b.pointer + 1) % C } := by
  simp [store_transition, broadcastRow, hcap, hdim, hp, hs, hsn]

/-- The inner `for it in range(EP_MAXLEN)` loop of `init_buffer` for one
episode.  The environment together with the agent's noisy action selection is
modelled by an oracle `step` mapping the global store count `t` to the
`(s_next, r, done)` result of `env.step(agent.choose_action(...))`.  As in the
source, the stored first component is always the episode's initial state `s`
(the loop never rebinds `s`), and the reward is rescaled by
`r = (r + 8.0) / 8.0`.  Returns the updated buffer, the new store count, and
whether `init_buffer` returned (`self.pointer == 0` right after a store);
`none` models an exception escaping from `store_transition`. -/
def initEpisode (step : Nat → List ℚ × ℚ × Bool) (s : List ℚ) :
    MemoryBuffer → Nat → Nat → Option (MemoryBuffer × Nat × Bool)
  | b, t, 0 => some (b, t, false)
  | b, t, fuel + 1 =>
    match step t with
    | (sn, r0, done) =>
      match store_transition b s ((r0 + 8) / 8) sn with
      | none => none
      | some b' =>
        if b'.pointer = 0 then some (b', t + 1, true)
        else if done then some (b', t + 1, false)
        else initEpisode step s b' (t + 1) fuel

/-- The outer `while True` loop of `init_buffer`: each pass resets the
environment (oracle `reset`, one initial state per episode index) and runs one
episode.  `fuel` bounds the number of episodes; `init_buffer` instantiates it
with the buffer capacity, which claim C4 shows suffices.  Returns the final
buffer together with the total number of stores executed. -/
def initOuter (reset : Nat → List ℚ) (step : Nat → List ℚ × ℚ × Bool) :
    MemoryBuffer → Nat → Nat → Nat → Option (MemoryBuffer × Nat)
  | _, _, _, 0 => none
  | b, t, ep, fuel + 1 =>
    match initEpisode step (reset ep) b t EP_MAXLEN with
    | none => none
    | some (b', t', true) => some (b', t')
    | some (b', t', false) => initOuter reset step b' t' (ep + 1) fuel

/-- `MemoryBuffer.init_buffer(env, agent)`. -/
def init_buffer (reset : Nat → List ℚ) (step : Nat → List ℚ × ℚ × Bool)
    (b : MemoryBuffer) : Option MemoryBuffer :=
  (initOuter reset step b 0 0 b.capacity).map Prod.fst

lemma initEpisode_spec {C d : Nat} (hC : 0 < C) (step : Nat → List ℚ × ℚ × Bool)
    (hstep : ∀ u, (step u).1.length = d) (s : List ℚ) (hs : s.length = d) :
    ∀ (fuel : Nat) (b : MemoryBuffer) (t : Nat),
      b.capacity = C → b.s_dim = d → b.pointer < C →
      ∃ b' t' ret, initEpisode step s b t fuel = some (b', t', ret) ∧
        b'.capacity = C ∧ b'.s_dim = d ∧ b'.pointer < C ∧ t ≤ t' ∧
        (ret = true → b'.pointer = 0 ∧ t' = t + (C - b.pointer)) ∧
        (ret = false → b'.pointer = b.pointer + (t' - t) ∧ (0 < fuel → t < t')) := by
  intro fuel
  induction fuel with
  | zero =>
    intro b t hcap hdim hp
    refine ⟨b, t, false, rfl, hcap, hdim, hp, le_refl t, ?_, ?_⟩
    · intro h; cases h
    · intro _; exact ⟨by omega, fun h => absurd h (lt_irrefl 0)⟩
  | succ f ih =>
    intro b t hcap hdim hp
    rcases hst : step t with ⟨sn, r0, done⟩
    have hsn : sn.length = d := by have h := hstep t; rw [hst] at h; exact h
    have hstore := store_transition_ok b hcap hdim hp s ((r0 + 8) / 8) sn hs hsn
    set b1 : MemoryBuffer := { b with
        state := b.state.set b.pointer s
        reward := b.reward.set b.pointer ((r0 + 8) / 8)
        s_next := b.s_next.set b.pointer sn
        pointer := (b.pointer + 1) % C } with hb1
    have hunfold : initEpisode step s b t (f + 1) =
        (if b1.pointer = 0 then some (b1, t + 1, true)
         else if done then some (b1, t + 1, false)
         else initEpisode step s b1 (t + 1) f) := by
      simp only [initEpisode, hst, hstore]
    have hb1cap : b1.capacity = C := hcap
    have hb1dim : b1.s_dim = d := hdim
    have hb1ptr : b1.pointer = (b.pointer + 1) % C := by rw [hb1]
    by_cases h0 : b1.pointer = 0
    · have hpc : b.pointer + 1 = C := by
        rw [hb1ptr] at h0
        rcases Nat.lt_or_ge (b.pointer + 1) C with h | h
        · rw [Nat.mod_eq_of_lt h] at h0; omega
        · omega
      refine ⟨b1, t + 1, true, by rw [hunfold, if_pos h0], hb1cap, hb1dim,
        by rw [h0]; exact hC, by omega, ?_, ?_⟩
      · intro _; exact ⟨h0, by omega⟩
      · intro h; cases h
    · have hlt : b.pointer + 1 < C := by
        by_cases hpc : b.pointer + 1 = C
        · exfalso; apply h0; rw [hb1ptr, hpc, Nat.mod_self]
        · omega
      have hb1p : b1.pointer = b.pointer + 1 := by
        rw [hb1ptr]; exact Nat.mod_eq_of_lt hlt
      by_cases hdone : done = true
      · refine ⟨b1, t + 1, false, ?_, hb1cap, hb1dim, by rw [hb1p]; exact hlt,
          by omega, ?_, ?_⟩
        · rw [hunfold, if_neg h0, if_pos hdone]
        · intro h; cases h
        · intro _
          refine ⟨by rw [hb1p]; omega, fun _ => by omega⟩
      · have hdone' : done = false := by
          cases done with
          | false => rfl
          | true => exact absurd rfl hdone
        obtain ⟨b', t', ret, heq, hcap', hdim', hp', hle, htrue, hfalse⟩ :=
          ih b1 (t + 1) hb1cap hb1dim (by rw [hb1p]; exact hlt)
        refine ⟨b', t', ret, ?_, hcap', hdim', hp', by omega, ?_, ?_⟩
        · rw [hunfold, if_neg h0, if_neg (by rw [hdone']; exact Bool.false_ne_true)]
          exact heq
        · intro hr
          obtain ⟨hz, ht'⟩ := htrue hr
          refine ⟨hz, ?_⟩
          rw [ht', hb1p]
          omega
        · intro hr
          obtain ⟨hptr, _⟩ := hfalse hr
          rw [hb1p] at hptr
          exact ⟨by omega, fun _ => by omega⟩

lemma initOuter_spec {C d : Nat} (hC : 0 < C) (reset : Nat → List ℚ)
    (step : Nat → List ℚ × ℚ × Bool) (hreset : ∀ e, (reset e).length = d)
    (hstep : ∀ u, (step u).1.length = d) :
    ∀ (fuel : Nat) (b : MemoryBuffer) (t ep : Nat),
      b.capacity = C → b.s_dim = d → b.pointer < C → C - b.pointer ≤ fuel →
      ∃ b', initOuter reset step b t ep fuel = some (b', t + (C - b.pointer)) ∧
        b'.pointer = 0 ∧ b'.capacity = C := by
  intro fuel
  induction fuel with
  | zero => intro b t ep _ _ hp hfuel; omega
  | succ f ih =>
    intro b t ep hcap hdim hp hfuel
    obtain ⟨b', t', ret, heq, hcap', hdim', hp', hle, htrue, hfalse⟩ :=
      initEpisode_spec hC step hstep (reset ep) (hreset ep) EP_MAXLEN b t hcap hdim hp
    cases ret with
    | true =>
      obtain ⟨hptr0, ht'⟩ := htrue rfl
      refine ⟨b', ?_, hptr0, hcap'⟩
      simp only [initOuter, heq]
      rw [ht']
    | false =>
      obtain ⟨hptr, hstrict⟩ := hfalse rfl
      have hlt : t < t' := hstrict (by simp [EP_MAXLEN])
      obtain ⟨b'', heq2, h0, hcap''⟩ := ih b' t' (ep + 1) hcap' hdim' hp' (by omega)
      refine ⟨b'', ?_, h0, hcap''⟩
      simp only [initOuter, heq, heq2]
      have harith : t' + (C - b'.pointer) = t + (C - b.pointer) := by omega
      rw [harith]

/-- **C4** (prefill termination): `init_buffer` on a freshly constructed buffer
of capacity `C > 0` always returns (given well-dimensioned environment states);
it performs exactly `C` stores — i.e. the buffer wraps exactly once — and on
return the pointer equals 0. -/
theorem spec_prefill_termination (C d : Nat) (hC : 0 < C)
    (reset : Nat → List ℚ) (step : Nat → List ℚ × ℚ × Bool)
    (hreset : ∀ e, (reset e).length = d) (hstep : ∀ u, (step u).1.length = d) :
    ∃ b', initOuter reset step (mkMemoryBuffer C d) 0 0 C = some (b', C) ∧
      init_buffer reset step (mkMemoryBuffer C d) = some b' ∧
      b'.pointer = 0 ∧ b'.capacity = C := by
  obtain ⟨b', heq, h0, hcap⟩ := initOuter_spec hC reset step hreset hstep C
    (mkMemoryBuffer C d) 0 0 rfl rfl hC (by simp [mkMemoryBuffer])
  have harith : (0 : Nat) + (C - (mkMemoryBuffer C d).pointer) = C := by
    simp [mkMemoryBuffer]
  rw [harith] at heq
  refine ⟨b', heq, ?_, h0, hcap⟩
  show (initOuter reset step (mkMemoryBuffer C d) 0 0 C).map Prod.fst = some b'
  rw [heq]
  rfl

theorem spec_prefill_termination_witness :
    ((0 : Nat) < 2 ∧ (∀ e : Nat, ((fun _ : Nat => ([0] : List ℚ)) e).length = 1) ∧
      (∀ u : Nat, ((fun _ : Nat => (([0] : List ℚ), (0 : ℚ), false)) u).1.length = 1)) ∧
    (∃ b', initOuter (fun _ => [0]) (fun _ => ([0], 0, false)) (mkMemoryBuffer 2 1) 0 0 2 =
        some (b', 2) ∧
      init_buffer (fun _ => [0]) (fun _ => ([0], 0, false)) (mkMemoryBuffer 2 1) = some b' ∧
      b'.pointer = 0 ∧ b'.capacity = 2) :=
  ⟨⟨by decide, fun _ => rfl, fun _ => rfl⟩,
    spec_prefill_termination 2 1 (by decide) _ _ (fun _ => rfl) (fun _ => rfl)⟩

/-! ### Lock-protected interleaving semantics (claim C3)

`ModelThread.run` brackets `buffer.sample` between `LOCK.acquire()` and
`LOCK.release()` (src lines 207-209); `BufferThread.run` brackets
`buffer.store_transition` the same way (src lines 234-236); `LOCK` is the one
global `threading.Lock`.  Each numpy array access inside a critical section is
one atomic micro-event, so torn visibility — a sampled row mixing fields from
different writes — would appear in this model as an interleaving of the write
micro-steps with the read micro-steps. -/

inductive LockState
  | free
  | heldP
  | heldL
deriving Repr, DecidableEq

/-- Producer position inside the critical section around `store_transition`:
the stashed transition is the call's argument triple. -/
inductive ProdPhase
  | idle
  | locked (tr : Transition)
  | wroteS (tr : Transition)
  | wroteR (tr : Transition)
  | wroteNS (tr : Transition)
  | advanced
deriving Repr, DecidableEq

/-- Learner position inside the critical section around `sample`: the index
list is fixed by the `randint` draw at entry, and the three gathers are one
micro-read per numpy array. -/
inductive LearnPhase
  | idle
  | locked (idx : List Nat)
  | readS (idx : List Nat) (ss : List (List ℚ))
  | readR (idx : List Nat) (ss : List (List ℚ)) (rs : List ℚ)
  | readNS (idx : List Nat) (ss : List (List ℚ)) (rs : List ℚ) (ns : List (List ℚ))
deriving Repr, DecidableEq

/-- Whole system: the shared buffer, the global lock, both thread positions,
two ghost histories (last committed write per row, all committed writes) and
the accumulated `sample` results. -/
structure Sys where
  buf : MemoryBuffer
  lock : LockState
  prod : ProdPhase
  learn : LearnPhase
  committed : List (Option Transition)
  commits : List Transition
  results : List (List (List ℚ × ℚ × List ℚ))
deriving Repr, DecidableEq

def gatherS (b : MemoryBuffer) (idx : List Nat) : List (List ℚ) :=
  idx.map fun j => b.state.getD j []

def gatherR (b : MemoryBuffer) (idx : List Nat) : List ℚ :=
  idx.map fun j => b.reward.getD j 0

def gatherNS (b : MemoryBuffer) (idx : List Nat) : List (List ℚ) :=
  idx.map fun j => b.s_next.getD j []

/-- Micro-events of the two threads. -/
inductive Ev
  | pAcq (tr : Transition)
  | pWrS
  | pWrR
  | pWrNS
  | pAdv
  | pRel
  | lAcq (draws : List Nat)
  | lRdS
  | lRdR
  | lRdNS
  | lRel
deriving Repr, DecidableEq

/-- Small-step semantics; `none` when the event is not enabled: the lock is
busy, the thread is elsewhere in its control flow, or the underlying numpy
call would raise (`store_transition` writes need `pointer < capacity`,
`randint` needs `capacity > 0`). -/
def stepEv (σ : Sys) : Ev → Option Sys
  | .pAcq tr =>
    match σ.lock, σ.prod with
    | .free, .idle =>
      if σ.buf.pointer < σ.buf.capacity then
        some { σ with lock := .heldP, prod := .locked tr }
      else none
    | _, _ => none
  | .pWrS =>
    match σ.prod with
    | .locked tr =>
      some { σ with
              buf := { σ.buf with state := σ.buf.state.set σ.buf.pointer tr.s }
              prod := .wroteS tr }
    | _ => none
  | .pWrR =>
    match σ.prod with
    | .wroteS tr =>
      some { σ with
              buf := { σ.buf with reward := σ.buf.reward.set σ.buf.pointer tr.r }
              prod := .wroteR tr }
    | _ => none
  | .pWrNS =>
    match σ.prod with
    | .wroteR tr =>
      some { σ with
              buf := { σ.buf with s_next := σ.buf.s_next.set σ.buf.pointer tr.s_next }
              prod := .wroteNS tr
              committed := σ.committed.set σ.buf.pointer (some tr)
              commits := σ.commits ++ [tr] }
    | _ => none
  | .pAdv =>
    match σ.prod with
    | .wroteNS _ =>
      some { σ with
              buf := { σ.buf with pointer := (σ.buf.pointer + 1) % σ.buf.capacity }
              prod := .advanced }
    | _ => none
  | .pRel =>
    match σ.prod with
    | .advanced => some { σ with lock := .free, prod := .idle }
    | _ => none
  | .lAcq draws =>
    match σ.lock, σ.learn with
    | .free, .idle =>
      if 0 < σ.buf.capacity then
        some { σ with
                lock := .heldL
                learn := .locked (draws.map fun x => x % σ.buf.capacity) }
      else none
    | _, _ => none
  | .lRdS =>
    match σ.learn with
    | .locked idx => some { σ with learn := .readS idx (gatherS σ.buf idx) }
    | _ => none
  | .lRdR =>
    match σ.learn with
    | .readS idx ss => some { σ with learn := .readR idx ss (gatherR σ.buf idx) }
    | _ => none
  | .lRdNS =>
    match σ.learn with
    | .readR idx ss rs => some { σ with learn := .readNS idx ss rs (gatherNS σ.buf idx) }
    | _ => none
  | .lRel =>
    match σ.learn with
    | .readNS _ ss rs ns =>
      some { σ with
              lock := .free
              learn := .idle
              results := σ.results ++ [ss.zip (rs.zip ns)] }
    | _ => none

/-- Run a whole interleaving (list of micro-events); `none` if any event is not
enabled, so `runEvs … = some _` ranges exactly over the legal interleavings. -/
def runEvs : Sys → List Ev → Option Sys
  | σ, [] => some σ
  | σ, e :: es =>
    match stepEv σ e with
    | none => none
    | some σ' => runEvs σ' es

/-- Fresh system around a fresh buffer: lock free, both threads at their loop
heads, no writes committed, no samples completed. -/
def initSys (C d : Nat) : Sys :=
  { buf := mkMemoryBuffer C d, lock := .free, prod := .idle, learn := .idle,
    committed := List.replicate C none, commits := [], results := [] }

/-- A gathered row triple is coherent when all three fields come from one and
the same underlying write, or the row was never written and still holds the
`np.zeros` placeholder. -/
def coherentTriple (d : Nat) (commits : List Transition)
    (x : List ℚ × ℚ × List ℚ) : Prop :=
  x = (List.replicate d 0, 0, List.replicate d 0) ∨
    ∃ tr ∈ commits, x = (tr.s, tr.r, tr.s_next)

/-- Per-row coherence of the shared arrays against the per-row ghost history:
each row holds exactly the three fields of its last committed write, or the
`np.zeros` placeholder if it was never written. -/
def rowsCoherent (C d : Nat) (σ : Sys) : Prop :=
  ∀ j, j < C → rowTriple σ.buf j = rowOf d (σ.committed.getD j none)

/-- Same, away from the row currently being rewritten. -/
def rowsCoherentOff (C d : Nat) (σ : Sys) (p : Nat) : Prop :=
  ∀ j, j < C → j ≠ p → rowTriple σ.buf j = rowOf d (σ.committed.getD j none)

/-- What the producer's position guarantees about the arrays: away from its
critical section all rows are coherent; mid-write only the pointer row is
torn, and exactly the fields written so far carry the new transition. -/
def prodCoherent (C d : Nat) (σ : Sys) : Prop :=
  match σ.prod with
  | .idle | .locked _ | .wroteNS _ | .advanced => rowsCoherent C d σ
  | .wroteS tr => rowsCoherentOff C d σ σ.buf.pointer ∧
      σ.buf.state.getD σ.buf.pointer [] = tr.s
  | .wroteR tr => rowsCoherentOff C d σ σ.buf.pointer ∧
      σ.buf.state.getD σ.buf.pointer [] = tr.s ∧
      σ.buf.reward.getD σ.buf.pointer 0 = tr.r

/-- What the learner's position guarantees: its indices are in range and the
snapshots taken so far agree with the buffer as it is now (the lock keeps the
producer out for the whole critical section). -/
def learnCoherent (C : Nat) (σ : Sys) : Prop :=
  match σ.learn with
  | .idle => True
  | .locked idx => ∀ j ∈ idx, j < C
  | .readS idx ss => (∀ j ∈ idx, j < C) ∧ ss = gatherS σ.buf idx
  | .readR idx ss rs => (∀ j ∈ idx, j < C) ∧ ss = gatherS σ.buf idx ∧
      rs = gatherR σ.buf idx
  | .readNS idx ss rs ns => (∀ j ∈ idx, j < C) ∧ ss = gatherS σ.buf idx ∧
      rs = gatherR σ.buf idx ∧ ns = gatherNS σ.buf idx

/-- The inductive invariant of the interleaving semantics. -/
structure Inv (C d : Nat) (σ : Sys) : Prop where
  cap : σ.buf.capacity = C
  ptrLt : σ.buf.pointer < C
  lenS : σ.buf.state.length = C
  lenR : σ.buf.reward.length = C
  lenNS : σ.buf.s_next.length = C
  lenCom : σ.committed.length = C
  lockP : σ.prod ≠ ProdPhase.idle ↔ σ.lock = LockState.heldP
  lockL : σ.learn ≠ LearnPhase.idle ↔ σ.lock = LockState.heldL
  comSub : ∀ j tr, σ.committed.getD j none = some tr → tr ∈ σ.commits
  prodOK : prodCoherent C d σ
  learnOK : learnCoherent C σ
  resOK : ∀ g ∈ σ.results, ∀ x ∈ g, coherentTriple d σ.commits x

lemma coherentTriple_append (d : Nat) (commits : List Transition) (tr : Transition)
    (x : List ℚ × ℚ × List ℚ) (h : coherentTriple d commits x) :
    coherentTriple d (commits ++ [tr]) x := by
  rcases h with h | ⟨u, hu, hx⟩
  · exact Or.inl h
  · exact Or.inr ⟨u, List.mem_append_left _ hu, hx⟩

lemma mem_zip3_gather (b : MemoryBuffer) (idx : List Nat) :
    ∀ x ∈ (gatherS b idx).zip ((gatherR b idx).zip (gatherNS b idx)),
      ∃ j ∈ idx, x = rowTriple b j := by
  induction idx with
  | nil => intro x hx; simp [gatherS, gatherR, gatherNS] at hx
  | cons a l ih =>
    intro x hx
    simp only [gatherS, gatherR, gatherNS, List.map_cons, List.zip_cons_cons] at hx
    rcases List.mem_cons.mp hx with h | h
    · exact ⟨a, List.mem_cons_self a l, by rw [h]; rfl⟩
    · obtain ⟨j, hj, hx2⟩ := ih x h
      exact ⟨j, List.mem_cons_of_mem a hj, hx2⟩

lemma Inv_init (C d : Nat) (hC : 0 < C) : Inv C d (initSys C d) := by
  refine ⟨rfl, hC, by simp [initSys, mkMemoryBuffer], by simp [initSys, mkMemoryBuffer],
    by simp [initSys, mkMemoryBuffer], by simp [initSys], by simp [initSys],
    by simp [initSys], ?_, ?_, ?_, ?_⟩
  · intro j tr h
    rcases Nat.lt_or_ge j C with hj | hj
    · rw [show (initSys C d).committed = List.replicate C none from rfl,
        getD_replicate_lt C j hj] at h
      cases h
    · rw [show (initSys C d).committed = List.replicate C none from rfl,
        List.getD_eq_default _ _ (by simpa using hj)] at h
      cases h
  · show rowsCoherent C d (initSys C d)
    intro j hj
    simp [rowTriple, initSys, mkMemoryBuffer, rowOf, List.getElem?_replicate, hj,
      getD_replicate_lt C j hj]
  · show True
    trivial
  · intro g hg
    simp [initSys] at hg

lemma Inv_step {C d : Nat} {σ σ' : Sys} (e : Ev) (hinv : Inv C d σ)
    (hstep : stepEv σ e = some σ') : Inv C d σ' := by
  obtain ⟨cap, ptrLt, lenS, lenR, lenNS, lenCom, lockP, lockL, comSub, prodOK, learnOK,
    resOK⟩ := hinv
  have hCpos : 0 < C := Nat.lt_of_le_of_lt (Nat.zero_le _) ptrLt
  cases e with
  | pAcq tr =>
    cases hl : σ.lock with
    | heldP => exfalso; cases hp : σ.prod <;> simp [stepEv, hl, hp] at hstep
    | heldL => exfalso; cases hp : σ.prod <;> simp [stepEv, hl, hp] at hstep
    | free =>
      cases hp : σ.prod with
      | locked tr2 => exfalso; simp [stepEv, hl, hp] at hstep
      | wroteS tr2 => exfalso; simp [stepEv, hl, hp] at hstep
      | wroteR tr2 => exfalso; simp [stepEv, hl, hp] at hstep
      | wroteNS tr2 => exfalso; simp [stepEv, hl, hp] at hstep
      | advanced => exfalso; simp [stepEv, hl, hp] at hstep
      | idle =>
        simp only [stepEv, hl, hp] at hstep
        by_cases hlt : σ.buf.pointer < σ.buf.capacity
        · rw [if_pos hlt] at hstep
          obtain heq := Option.some.inj hstep
          subst heq
          have hlearn : σ.learn = LearnPhase.idle := by
            by_contra h
            have h2 := lockL.mp h
            rw [hl] at h2
            cases h2
          have holdRows : rowsCoherent C d σ := by
            simpa only [prodCoherent, hp] using prodOK
          refine ⟨cap, ptrLt, lenS, lenR, lenNS, lenCom, by simp, by simp [hlearn],
            comSub, ?_, ?_, resOK⟩
          · simp only [prodCoherent]
            exact fun j hj => holdRows j hj
          · simp [learnCoherent, hlearn]
        · rw [if_neg hlt] at hstep
          cases hstep
  | pWrS =>
    cases hp : σ.prod with
    | idle => exfalso; simp [stepEv, hp] at hstep
    | wroteS tr2 => exfalso; simp [stepEv, hp] at hstep
    | wroteR tr2 => exfalso; simp [stepEv, hp] at hstep
    | wroteNS tr2 => exfalso; simp [stepEv, hp] at hstep
    | advanced => exfalso; simp [stepEv, hp] at hstep
    | locked tr =>
      simp only [stepEv, hp] at hstep
      obtain heq := Option.some.inj hstep
      subst heq
      have hPne : σ.prod ≠ ProdPhase.idle := by rw [hp]; intro h; cases h
      have hlockP : σ.lock = LockState.heldP := lockP.mp hPne
      have hlearn : σ.learn = LearnPhase.idle := by
        by_contra h
        have h2 := lockL.mp h
        rw [hlockP] at h2
        cases h2
      have holdRows : rowsCoherent C d σ := by
        simpa only [prodCoherent, hp] using prodOK
      refine ⟨cap, ptrLt, by simpa using lenS, lenR, lenNS, lenCom, by simp [hlockP],
        by simp [hlearn, hlockP], comSub, ?_, ?_, resOK⟩
      · simp only [prodCoherent]
        constructor
        · intro j hj hne
          have h1 : rowTriple { σ.buf with
              state := σ.buf.state.set σ.buf.pointer tr.s } j = rowTriple σ.buf j := by
            simp only [rowTriple]
            rw [getD_set_ne _ _ _ (fun hh => hne hh.symm)]
          exact h1.trans (holdRows j hj)
        · exact getD_set_self _ _ (by rw [lenS]; exact ptrLt) _ _
      · simp [learnCoherent, hlearn]
  | pWrR =>
    cases hp : σ.prod with
    | idle => exfalso; simp [stepEv, hp] at hstep
    | locked tr2 => exfalso; simp [stepEv, hp] at hstep
    | wroteR tr2 => exfalso; simp [stepEv, hp] at hstep
    | wroteNS tr2 => exfalso; simp [stepEv, hp] at hstep
    | advanced => exfalso; simp [stepEv, hp] at hstep
    | wroteS tr =>
      simp only [stepEv, hp] at hstep
      obtain heq := Option.some.inj hstep
      subst heq
      have hPne : σ.prod ≠ ProdPhase.idle := by rw [hp]; intro h; cases h
      have hlockP : σ.lock = LockState.heldP := lockP.mp hPne
      have hlearn : σ.learn = LearnPhase.idle := by
        by_contra h
        have h2 := lockL.mp h
        rw [hlockP] at h2
        cases h2
      obtain ⟨hoff, hsval⟩ : rowsCoherentOff C d σ σ.buf.pointer ∧
          σ.buf.state.getD σ.buf.pointer [] = tr.s := by
        simpa only [prodCoherent, hp] using prodOK
      refine ⟨cap, ptrLt, lenS, by simpa using lenR, lenNS, lenCom, by simp [hlockP],
        by simp [hlearn, hlockP], comSub, ?_, ?_, resOK⟩
      · simp only [prodCoherent]
        refine ⟨?_, hsval, ?_⟩
        · intro j hj hne
          have h1 : rowTriple { σ.buf with
              reward := σ.buf.reward.set σ.buf.pointer tr.r } j = rowTriple σ.buf j := by
            simp only [rowTriple]
            rw [getD_set_ne _ _ _ (fun hh => hne hh.symm)]
          exact h1.trans (hoff j hj hne)
        · exact getD_set_self _ _ (by rw [lenR]; exact ptrLt) _ _
      · simp [learnCoherent, hlearn]
  | pWrNS =>
    cases hp : σ.prod with
    | idle => exfalso; simp [stepEv, hp] at hstep
    | locked tr2 => exfalso; simp [stepEv, hp] at hstep
    | wroteS tr2 => exfalso; simp [stepEv, hp] at hstep
    | wroteNS tr2 => exfalso; simp [stepEv, hp] at hstep
    | advanced => exfalso; simp [stepEv, hp] at hstep
    | wroteR tr =>
      simp only [stepEv, hp] at hstep
      obtain heq := Option.some.inj hstep
      subst heq
      have hPne : σ.prod ≠ ProdPhase.idle := by rw [hp]; intro h; cases h
      have hlockP : σ.lock = LockState.heldP := lockP.mp hPne
      have hlearn : σ.learn = LearnPhase.idle := by
        by_contra h
        have h2 := lockL.mp h
        rw [hlockP] at h2
        cases h2
      obtain ⟨hoff, hsval, hrval⟩ : rowsCoherentOff C d σ σ.buf.pointer ∧
          σ.buf.state.getD σ.buf.pointer [] = tr.s ∧
          σ.buf.reward.getD σ.buf.pointer 0 = tr.r := by
        simpa only [prodCoherent, hp] using prodOK
      refine ⟨cap, ptrLt, lenS, lenR, by simpa using lenNS, by simpa using lenCom,
        by simp [hlockP], by simp [hlearn, hlockP], ?_, ?_, ?_, ?_⟩
      · intro j tr2 h
        by_cases hjp : j = σ.buf.pointer
        · subst hjp
          rw [getD_set_self _ _ (by rw [lenCom]; exact ptrLt)] at h
          obtain htr := Option.some.inj h
          subst htr
          exact List.mem_append_right _ (by simp)
        · rw [getD_set_ne _ _ _ (fun hh => hjp hh.symm)] at h
          exact List.mem_append_left _ (comSub j tr2 h)
      · simp only [prodCoherent]
        intro j hj
        by_cases hjp : j = σ.buf.pointer
        · subst hjp
          simp only [rowTriple]
          rw [getD_set_self _ _ (by rw [lenNS]; exact ptrLt),
            getD_set_self _ _ (by rw [lenCom]; exact ptrLt), hsval, hrval]
          rfl
        · have h1 : rowTriple { σ.buf with
              s_next := σ.buf.s_next.set σ.buf.pointer tr.s_next } j = rowTriple σ.buf j := by
            simp only [rowTriple]
            rw [getD_set_ne _ _ _ (fun hh => hjp hh.symm)]
          have h2 : (σ.committed.set σ.buf.pointer (some tr)).getD j none =
              σ.committed.getD j none :=
            getD_set_ne _ _ _ (fun hh => hjp hh.symm) _ _
          rw [h2]
          exact h1.trans (hoff j hj hjp)
      · simp [learnCoherent, hlearn]
      · intro g hg x hx
        exact coherentTriple_append d σ.commits tr x (resOK g hg x hx)
  | pAdv =>
    cases hp : σ.prod with
    | idle => exfalso; simp [stepEv, hp] at hstep
    | locked tr2 => exfalso; simp [stepEv, hp] at hstep
    | wroteS tr2 => exfalso; simp [stepEv, hp] at hstep
    | wroteR tr2 => exfalso; simp [stepEv, hp] at hstep
    | advanced => exfalso; simp [stepEv, hp] at hstep
    | wroteNS tr =>
      simp only [stepEv, hp] at hstep
      obtain heq := Option.some.inj hstep
      subst heq
      have hPne : σ.prod ≠ ProdPhase.idle := by rw [hp]; intro h; cases h
      have hlockP : σ.lock = LockState.heldP := lockP.mp hPne
      have hlearn : σ.learn = LearnPhase.idle := by
        by_contra h
        have h2 := lockL.mp h
        rw [hlockP] at h2
        cases h2
      have holdRows : rowsCoherent C d σ := by
        simpa only [prodCoherent, hp] using prodOK
      refine ⟨cap, ?_, lenS, lenR, lenNS, lenCom, by simp [hlockP],
        by simp [hlearn, hlockP], comSub, ?_, ?_, resOK⟩
      · show (σ.buf.pointer + 1) % σ.buf.capacity < C
        rw [cap]
        exact Nat.mod_lt _ hCpos
      · simp only [prodCoherent]
        exact fun j hj => holdRows j hj
      · simp [learnCoherent, hlearn]
  | pRel =>
    cases hp : σ.prod with
    | idle => exfalso; simp [stepEv, hp] at hstep
    | locked tr2 => exfalso; simp [stepEv, hp] at hstep
    | wroteS tr2 => exfalso; simp [stepEv, hp] at hstep
    | wroteR tr2 => exfalso; simp [stepEv, hp] at hstep
    | wroteNS tr2 => exfalso; simp [stepEv, hp] at hstep
    | advanced =>
      simp only [stepEv, hp] at hstep
      obtain heq := Option.some.inj hstep
      subst heq
      have hPne : σ.prod ≠ ProdPhase.idle := by rw [hp]; intro h; cases h
      have hlockP : σ.lock = LockState.heldP := lockP.mp hPne
      have hlearn : σ.learn = LearnPhase.idle := by
        by_contra h
        have h2 := lockL.mp h
        rw [hlockP] at h2
        cases h2
      have holdRows : rowsCoherent C d σ := by
        simpa only [prodCoherent, hp] using prodOK
      refine ⟨cap, ptrLt, lenS, lenR, lenNS, lenCom, by simp, by simp [hlearn],
        comSub, ?_, ?_, resOK⟩
      · simp only [prodCoherent]
        exact fun j hj => holdRows j hj
      · simp [learnCoherent, hlearn]
  | lAcq dr =>
    cases hl : σ.lock with
    | heldP => exfalso; cases hv : σ.learn <;> simp [stepEv, hl, hv] at hstep
    | heldL => exfalso; cases hv : σ.learn <;> simp [stepEv, hl, hv] at hstep
    | free =>
      cases hv : σ.learn with
      | locked idx => exfalso; simp [stepEv, hl, hv] at hstep
      | readS idx ss => exfalso; simp [stepEv, hl, hv] at hstep
      | readR idx ss rs => exfalso; simp [stepEv, hl, hv] at hstep
      | readNS idx ss rs ns => exfalso; simp [stepEv, hl, hv] at hstep
      | idle =>
        simp only [stepEv, hl, hv] at hstep
        by_cases hcond : 0 < σ.buf.capacity
        · rw [if_pos hcond] at hstep
          obtain heq := Option.some.inj hstep
          subst heq
          have hprod : σ.prod = ProdPhase.idle := by
            by_contra h
            have h2 := lockP.mp h
            rw [hl] at h2
            cases h2
          have holdRows : rowsCoherent C d σ := by
            simpa only [prodCoherent, hprod] using prodOK
          refine ⟨cap, ptrLt, lenS, lenR, lenNS, lenCom, by simp [hprod], by simp,
            comSub, ?_, ?_, resOK⟩
          · simp only [prodCoherent, hprod]
            exact fun j hj => holdRows j hj
          · simp only [learnCoherent]
            intro j hj
            simp only [List.mem_map] at hj
            obtain ⟨x, _, rfl⟩ := hj
            rw [← cap]
            exact Nat.mod_lt _ hcond
        · rw [if_neg hcond] at hstep
          cases hstep
  | lRdS =>
    cases hv : σ.learn with
    | idle => exfalso; simp [stepEv, hv] at hstep
    | readS idx ss => exfalso; simp [stepEv, hv] at hstep
    | readR idx ss rs => exfalso; simp [stepEv, hv] at hstep
    | readNS idx ss rs ns => exfalso; simp [stepEv, hv] at hstep
    | locked idx =>
      simp only [stepEv, hv] at hstep
      obtain heq := Option.some.inj hstep
      subst heq
      have hLne : σ.learn ≠ LearnPhase.idle := by rw [hv]; intro h; cases h
      have hlockL : σ.lock = LockState.heldL := lockL.mp hLne
      have hprod : σ.prod = ProdPhase.idle := by
        by_contra h
        have h2 := lockP.mp h
        rw [hlockL] at h2
        cases h2
      have holdRows : rowsCoherent C d σ := by
        simpa only [prodCoherent, hprod] using prodOK
      have hbounds : ∀ j ∈ idx, j < C := by
        simpa only [learnCoherent, hv] using learnOK
      refine ⟨cap, ptrLt, lenS, lenR, lenNS, lenCom, by simp [hprod, hlockL],
        by simp [hlockL], comSub, ?_, ?_, resOK⟩
      · simp only [prodCoherent, hprod]
        exact fun j hj => holdRows j hj
      · exact ⟨hbounds, rfl⟩
  | lRdR =>
    cases hv : σ.learn with
    | idle => exfalso; simp [stepEv, hv] at hstep
    | locked idx => exfalso; simp [stepEv, hv] at hstep
    | readR idx ss rs => exfalso; simp [stepEv, hv] at hstep
    | readNS idx ss rs ns => exfalso; simp [stepEv, hv] at hstep
    | readS idx ss =>
      simp only [stepEv, hv] at hstep
      obtain heq := Option.some.inj hstep
      subst heq
      have hLne : σ.learn ≠ LearnPhase.idle := by rw [hv]; intro h; cases h
      have hlockL : σ.lock = LockState.heldL := lockL.mp hLne
      have hprod : σ.prod = ProdPhase.idle := by
        by_contra h
        have h2 := lockP.mp h
        rw [hlockL] at h2
        cases h2
      have holdRows : rowsCoherent C d σ := by
        simpa only [prodCoherent, hprod] using prodOK
      obtain ⟨hbounds, hss⟩ : (∀ j ∈ idx, j < C) ∧ ss = gatherS σ.buf idx := by
        simpa only [learnCoherent, hv] using learnOK
      refine ⟨cap, ptrLt, lenS, lenR, lenNS, lenCom, by simp [hprod, hlockL],
        by simp [hlockL], comSub, ?_, ?_, resOK⟩
      · simp only [prodCoherent, hprod]
        exact fun j hj => holdRows j hj
      · exact ⟨hbounds, hss, rfl⟩
  | lRdNS =>
    cases hv : σ.learn with
    | idle => exfalso; simp [stepEv, hv] at hstep
    | locked idx => exfalso; simp [stepEv, hv] at hstep
    | readS idx ss => exfalso; simp [stepEv, hv] at hstep
    | readNS idx ss rs ns => exfalso; simp [stepEv, hv] at hstep
    | readR idx ss rs =>
      simp only [stepEv, hv] at hstep
      obtain heq := Option.some.inj hstep
      subst heq
      have hLne : σ.learn ≠ LearnPhase.idle := by rw [hv]; intro h; cases h
      have hlockL : σ.lock = LockState.heldL := lockL.mp hLne
      have hprod : σ.prod = ProdPhase.idle := by
        by_contra h
        have h2 := lockP.mp h
        rw [hlockL] at h2
        cases h2
      have holdRows : rowsCoherent C d σ := by
        simpa only [prodCoherent, hprod] using prodOK
      obtain ⟨hbounds, hss, hrs⟩ : (∀ j ∈ idx, j < C) ∧ ss = gatherS σ.buf idx ∧
          rs = gatherR σ.buf idx := by
        simpa only [learnCoherent, hv] using learnOK
      refine ⟨cap, ptrLt, lenS, lenR, lenNS, lenCom, by simp [hprod, hlockL],
        by simp [hlockL], comSub, ?_, ?_, resOK⟩
      · simp only [prodCoherent, hprod]
        exact fun j hj => holdRows j hj
      · exact ⟨hbounds, hss, hrs, rfl⟩
  | lRel =>
    cases hv : σ.learn with
    | idle => exfalso; simp [stepEv, hv] at hstep
    | locked idx => exfalso; simp [stepEv, hv] at hstep
    | readS idx ss => exfalso; simp [stepEv, hv] at hstep
    | readR idx ss rs => exfalso; simp [stepEv, hv] at hstep
    | readNS idx ss rs ns =>
      simp only [stepEv, hv] at hstep
      obtain heq := Option.some.inj hstep
      subst heq
      have hLne : σ.learn ≠ LearnPhase.idle := by rw [hv]; intro h; cases h
      have hlockL : σ.lock = LockState.heldL := lockL.mp hLne
      have hprod : σ.prod = ProdPhase.idle := by
        by_contra h
        have h2 := lockP.mp h
        rw [hlockL] at h2
        cases h2
      have holdRows : rowsCoherent C d σ := by
        simpa only [prodCoherent, hprod] using prodOK
      obtain ⟨hbounds, hss, hrs, hns⟩ : (∀ j ∈ idx, j < C) ∧ ss = gatherS σ.buf idx ∧
          rs = gatherR σ.buf idx ∧ ns = gatherNS σ.buf idx := by
        simpa only [learnCoherent, hv] using learnOK
      refine ⟨cap, ptrLt, lenS, lenR, lenNS, lenCom, by simp [hprod], by simp,
        comSub, ?_, ?_, ?_⟩
      · simp only [prodCoherent, hprod]
        exact fun j hj => holdRows j hj
      · simp [learnCoherent]
      · intro g hg x hx
        rcases List.mem_append.mp hg with hgold | hgnew
        · exact resOK g hgold x hx
        · have hgeq : g = ss.zip (rs.zip ns) := by simpa using hgnew
          rw [hgeq, hss, hrs, hns] at hx
          obtain ⟨j, hjidx, hxval⟩ := mem_zip3_gather σ.buf idx x hx
          have hjC : j < C := hbounds j hjidx
          have hrow := holdRows j hjC
          rw [hxval, hrow]
          cases hcom : σ.committed.getD j none with
          | none => exact Or.inl rfl
          | some tr => exact Or.inr ⟨tr, comSub j tr hcom, rfl⟩

lemma Inv_runEvs {C d : Nat} : ∀ (evs : List Ev) (σ σfin : Sys), Inv C d σ →
    runEvs σ evs = some σfin → Inv C d σfin := by
  intro evs
  induction evs with
  | nil =>
    intro σ σfin h hrun
    rw [runEvs] at hrun
    exact (Option.some.inj hrun) ▸ h
  | cons e es ih =>
    intro σ σfin h hrun
    rw [runEvs] at hrun
    cases hst : stepEv σ e with
    | none => rw [hst] at hrun; cases hrun
    | some σ1 =>
      rw [hst] at hrun
      exact ih σ1 σfin (Inv_step e h hst) hrun

/-- **C3** (no data race): under the lock discipline of the two threads — the
producer holds the one global lock for the whole of `store_transition`, the
learner holds it for the whole of `sample` — every legal interleaving of
arbitrarily many store and sample micro-steps from a fresh system yields only
sampled rows whose state, reward and next-state fields all come from one and
the same committed write (or from the untouched zero initialisation); no torn
row is ever observable. -/
theorem spec_no_data_race (C d : Nat) (hC : 0 < C) (evs : List Ev) (σfin : Sys)
    (hrun : runEvs (initSys C d) evs = some σfin) :
    ∀ g ∈ σfin.results, ∀ x ∈ g, coherentTriple d σfin.commits x :=
  (Inv_runEvs evs (initSys C d) σfin (Inv_init C d hC) hrun).resOK

/-- A full store of `([7], 1, [8])` interleaved (sequentially) with a full
sample of rows `0, 1` on a capacity-2 system. -/
def demoTrace : List Ev :=
  [.pAcq ⟨[7], 1, [8]⟩, .pWrS, .pWrR, .pWrNS, .pAdv, .pRel,
   .lAcq [0, 1], .lRdS, .lRdR, .lRdNS, .lRel]

/-- The system state `demoTrace` ends in. -/
def demoFinal : Sys :=
  { buf := { capacity := 2, s_dim := 1, state := [[7], [0]], reward := [1, 0],
             s_next := [[8], [0]], pointer := 1 },
    lock := .free, prod := .idle, learn := .idle,
    committed := [some ⟨[7], 1, [8]⟩, none], commits := [⟨[7], 1, [8]⟩],
    results := [[([7], 1, [8]), ([0], 0, [0])]] }

theorem spec_no_data_race_witness :
    ((0 : Nat) < 2 ∧ runEvs (initSys 2 1) demoTrace = some demoFinal) ∧
    (∀ g ∈ demoFinal.results, ∀ x ∈ g, coherentTriple 1 demoFinal.commits x) :=
  ⟨⟨by decide, by decide⟩,
    spec_no_data_race 2 1 (by decide) demoTrace demoFinal (by decide)⟩

end DDPG
